import Mathlib

/-!
Verification development for the submission categorizer of the `cs3560cli`
repository (`src/cs3560cli/services/canvas.py`): the functions
`get_unique_names` (lines 34-67) and `categorize` (lines 70-143).

The filesystem is embedded explicitly:
* a file or member name is a `List Char` (so that Python's `str.split` can be
  modelled and reasoned about directly);
* the source is a tagged variant: a directory (a list of entries, each a name
  plus a regular-file flag), a valid zip archive (a list of member names), or
  an invalid source (neither a directory nor a valid zip);
* the destination is a tree of paths (directories and files) relative to the
  destination root, together with a status flag (absent / is a directory /
  exists but is not a directory);
* per-file operating-system errors during move/extract are an oracle
  `fails : Name → Bool` saying which member names raise `OSError`;
* `os.mkdir` is fallible (it raises if the path already exists), so that the
  `if not os.path.exists(...)` guard in the code is what makes directory
  creation idempotent;
* zip-handle lifecycle is recorded as a trace of open/close events
  (`get_unique_names` opens the archive in a `with` block; `categorize`
  reopens it at line 114 and closes it at line 143).
-/

set_option autoImplicit false

namespace Cs3560

/-- A file or zip-member name, as a list of characters. -/
abbrev Name := List Char

/-- Python's `str.split(sep)` restricted to a single-character separator:
`"a_b".split("_") = ["a","b"]`, `"".split("_") = [""]`,
`"_x".split("_") = ["", "x"]`. -/
def splitOnChar (sep : Char) : List Char → List (List Char)
  | [] => [[]]
  | c :: rest =>
    match splitOnChar sep rest with
    | [] => [[]]
    | g :: gs => if c = sep then [] :: g :: gs else (c :: g) :: gs

/-- The handle of a file name, as computed at line 125 of `canvas.py`:
`raw_filename.split("_")[0]`. -/
def handle (n : Name) : Name := (splitOnChar '_' n).headD []

/-- The handle-extraction loop of `get_unique_names` (lines 58-64): for each
file name, split on `_` and, when the token list is non-empty, keep the first
token. -/
def extractHandles : List Name → List Name
  | [] => []
  | f :: rest =>
    match splitOnChar '_' f with
    | [] => extractHandles rest
    | t :: _ => t :: extractHandles rest

/-- A directory entry: a name and whether the entry is a regular file. -/
structure Entry where
  name : Name
  isFile : Bool
  deriving DecidableEq, Repr

/-- The source argument of `categorize` / `get_unique_names`: a directory, a
valid zip archive, or neither. -/
inductive Source where
  | dir (entries : List Entry)
  | zip (members : List Name)
  | invalid
  deriving DecidableEq, Repr

/-- The enumerated member file names of a source: the zip member list
(line 115), or the non-recursive directory listing filtered to regular files
(lines 117-119 / 56). An invalid source has no members (the code raises before
enumerating). -/
def memberFiles : Source → List Name
  | .dir es => (es.filter (fun e => e.isFile)).map (fun e => e.name)
  | .zip ms => ms
  | .invalid => []

/-- The entries of a directory source (empty for the other variants). -/
def sourceEntries : Source → List Entry
  | .dir es => es
  | _ => []

/-- A path relative to the destination root, as a list of components; `[]` is
the destination directory itself. -/
abbrev Path := List Name

/-- The path components contributed by `os.path.join(destination, n)` beyond
the destination root: `os.path.join(d, "")` is `d` plus a trailing separator,
which names `d` itself, so an empty name contributes no component. -/
def comps (n : Name) : List Name := if n = [] then [] else [n]

/-- The path components a zip member name contributes when extracted:
`ZipFile.extract` preserves the member's internal path structure, so the name
is split on `/` (empty segments contribute nothing). -/
def slashComps (n : Name) : List Name :=
  (splitOnChar '/' n).filter (fun g => ¬ g.isEmpty)

/-- The destination tree: which directories and which files exist, as paths
relative to the destination root. -/
structure DestTree where
  dirs : List Path
  files : List Path
  deriving DecidableEq, Repr

/-- A destination directory with nothing in it yet. -/
def emptyTree : DestTree := ⟨[], []⟩

/-- Model of `os.path.exists` relative to the destination root: the root itself always
exists, as does every recorded directory or file. -/
def pathExists (t : DestTree) (p : Path) : Bool :=
  p.isEmpty || decide (p ∈ t.dirs) || decide (p ∈ t.files)

/-- Record a new directory in the destination tree. -/
def addDir (t : DestTree) (p : Path) : DestTree := ⟨t.dirs ++ [p], t.files⟩

/-- Record a new file in the destination tree. -/
def addFile (t : DestTree) (p : Path) : DestTree := ⟨t.dirs, t.files ++ [p]⟩

/-- The errors `categorize` can raise: `ValueError` for a bad source
(line 96), `ValueError` for a destination that exists and is not a directory
(line 105), and `FileExistsError` from an unguarded `os.mkdir` of an existing
path. The spec calls the first two `InvalidInputError`. -/
inductive Err where
  | invalidSource
  | invalidDestination
  | mkdirExists
  deriving DecidableEq, Repr

/-- The state of the destination path before the call. -/
inductive DestStatus where
  | absent
  | isDir
  | notDir
  deriving DecidableEq, Repr

/-- The filesystem state `categorize` operates on. The `tree` field is the
content of the destination when `destStatus` is `isDir`. -/
structure FS where
  source : Source
  destStatus : DestStatus
  tree : DestTree
  deriving DecidableEq, Repr

/-- An open or close event on the source zip archive handle. -/
inductive ZipEvent where
  | opened
  | closed
  deriving DecidableEq, Repr

/-- The outcome of a call to `categorize`: the final filesystem state, the
raised error if any (`none` means a normal return), and the ordered trace of
zip-handle open/close events. On a raise the filesystem is the state at the
raise point. -/
structure Outcome where
  fs : FS
  err : Option Err
  zipTrace : List ZipEvent
  deriving DecidableEq, Repr

/-- Model of `os.mkdir`: it creates the directory, raising `FileExistsError` when the path
already exists. -/
def mkdirP (t : DestTree) (p : Path) : Except Err DestTree :=
  if pathExists t p then .error .mkdirExists else .ok (addDir t p)

/-- The folder-creation loop of `categorize` (lines 108-110): for each unique
name, `os.mkdir(os.path.join(destination, name))` guarded by
`not os.path.exists(...)`. -/
def ensureDirs (t : DestTree) : List Name → Except Err DestTree
  | [] => .ok t
  | n :: rest =>
    if pathExists t (comps n) then ensureDirs t rest
    else
      match mkdirP t (comps n) with
      | .error e => .error e
      | .ok t2 => ensureDirs t2 rest

/-- Lines 102-105 of `categorize`: create the destination if it does not
exist; raise if it exists and is not a directory. -/
def destPrep : DestStatus → DestTree → Except Err DestTree
  | .absent, _ => .ok emptyTree
  | .isDir, t => .ok t
  | .notDir, _ => .error .invalidDestination

/-- Where `os.rename` puts a moved file (lines 135-138):
`os.path.join(destination, name, raw_filename)` with `name` the handle. -/
def dirTarget (f : Name) : Path := comps (handle f) ++ [f]

/-- Where `ZipFile.extract` puts an extracted member (lines 130-133): under
`os.path.join(destination, name)`, preserving the member's internal path. -/
def zipTarget (m : Name) : Path := comps (handle m) ++ slashComps m

/-- The move loop of `categorize` for a directory source (lines 121-140):
for each enumerated file, either its `os.rename` raises `OSError` (the oracle
`fails`), which is logged and the file skipped, or the file leaves the source
directory and lands at its target in the destination tree. -/
def moveLoop (fails : Name → Bool) : List Name → List Entry × DestTree → List Entry × DestTree
  | [], st => st
  | f :: rest, (es, t) =>
    if fails f then moveLoop fails rest (es, t)
    else moveLoop fails rest (es.filter (fun e => e.name ≠ f), addFile t (dirTarget f))

/-- The extraction loop of `categorize` for a zip source (lines 121-140):
each member either fails (logged, skipped) or is extracted to its target; the
archive itself is not mutated. -/
def extractLoop (fails : Name → Bool) : List Name → DestTree → DestTree
  | [], t => t
  | m :: rest, t =>
    if fails m then extractLoop fails rest t
    else extractLoop fails rest (addFile t (zipTarget m))

/-- Model of `get_unique_names` (lines 34-67): raise `ValueError` unless the path is a
directory or a valid zip; enumerate member file names; extract handles; return
the distinct handles (Python's `list(set(names))`, modelled as `dedup` since
the order is not significant). -/
def get_unique_names (s : Source) : Except Err (List Name) :=
  match s with
  | .invalid => .error .invalidSource
  | s => .ok ((extractHandles (memberFiles s)).dedup)

/-- Model of `categorize` (lines 70-143), parametrised by the per-file `OSError`
oracle. Steps in source order: source validity check (95-96);
`get_unique_names` (99), which for a zip opens and closes the archive in a
`with` block; destination check/creation (102-105); per-handle folder creation
(108-110); re-enumeration, reopening the zip at line 114; the move/extract
loop with per-file `OSError` handling (121-140); zip close (142-143). -/
def categorize (fails : Name → Bool) (fs : FS) : Outcome :=
  match fs.source with
  | .invalid => ⟨fs, some .invalidSource, []⟩
  | .dir entries =>
    let files := memberFiles (.dir entries)
    let uniqueNames := (extractHandles files).dedup
    match destPrep fs.destStatus fs.tree with
    | .error e => ⟨fs, some e, []⟩
    | .ok t0 =>
      match ensureDirs t0 uniqueNames with
      | .error e => ⟨fs, some e, []⟩
      | .ok t1 =>
        let st := moveLoop fails files (entries, t1)
        ⟨⟨.dir st.1, .isDir, st.2⟩, none, []⟩
  | .zip members =>
    let uniqueNames := (extractHandles members).dedup
    match destPrep fs.destStatus fs.tree with
    | .error e => ⟨fs, some e, [.opened, .closed]⟩
    | .ok t0 =>
      match ensureDirs t0 uniqueNames with
      | .error e => ⟨fs, some e, [.opened, .closed]⟩
      | .ok t1 =>
        let t2 := extractLoop fails members t1
        ⟨⟨.zip members, .isDir, t2⟩, none,
          [.opened, .closed, .opened, .closed]⟩

/-- A zip-handle trace is balanced when every close matches an earlier open
and no open is left unclosed at the end. -/
def traceDepthOk : List ZipEvent → Nat → Bool
  | [], d => d = 0
  | .opened :: rest, d => traceDepthOk rest (d + 1)
  | .closed :: rest, d =>
    match d with
    | 0 => false
    | d + 1 => traceDepthOk rest d

/-- Balanced, well-nested open/close trace starting from no open handle. -/
def balancedTrace (l : List ZipEvent) : Bool := traceDepthOk l 0

/-- The per-file `OSError` oracle for runs where every relocation succeeds. -/
def noFail : Name → Bool := fun _ => false

/-- The three-file example batch from the spec. -/
def exNames : List Name :=
  ["kc555014_hw1.py".toList, "kc555014_hw1_helper.py".toList, "jd000002_hw1.py".toList]

/-- The example batch as directory entries. -/
def exEntries : List Entry := exNames.map (fun n => ⟨n, true⟩)

/-- An oracle that makes exactly the first example file raise `OSError`. -/
def exFail : Name → Bool := fun n => n == "kc555014_hw1.py".toList

/-- An example batch with a file whose name begins with an underscore. -/
def exUEntries : List Entry :=
  [⟨"_hw1.py".toList, true⟩, ⟨"kc555014_hw1.py".toList, true⟩]

/-- An example directory holding a subdirectory next to a regular file. -/
def exMixedEntries : List Entry :=
  [⟨"subdir".toList, false⟩, ⟨"kc555014_hw1.py".toList, true⟩]

/-! ### Lemmas about splitting and handles -/

theorem splitOnChar_ne_nil (sep : Char) (s : List Char) : splitOnChar sep s ≠ [] := by
  cases s with
  | nil => simp [splitOnChar]
  | cons c rest =>
    simp only [splitOnChar]
    cases h : splitOnChar sep rest with
    | nil => simp
    | cons g gs =>
      split
      · simp
      · split <;> simp

theorem handle_cons (c : Char) (rest : List Char) :
    handle (c :: rest) = if c = '_' then [] else c :: handle rest := by
  unfold handle
  cases h : splitOnChar '_' rest with
  | nil => exact absurd h (splitOnChar_ne_nil _ _)
  | cons g gs =>
    simp only [splitOnChar, h]
    split <;> simp

theorem handle_eq_takeWhile (n : Name) : handle n = n.takeWhile (fun c => c != '_') := by
  induction n with
  | nil => rfl
  | cons c rest ih =>
    rw [handle_cons]
    by_cases hc : c = '_' <;> simp [List.takeWhile_cons, hc, ih]

theorem handle_of_no_underscore (n : Name) (h : '_' ∉ n) : handle n = n := by
  induction n with
  | nil => rfl
  | cons c rest ih =>
    rw [handle_cons]
    simp only [List.mem_cons, not_or] at h
    rw [if_neg (fun hc => h.1 hc.symm), ih h.2]

theorem extractHandles_eq_map (l : List Name) : extractHandles l = l.map handle := by
  induction l with
  | nil => rfl
  | cons f rest ih =>
    unfold extractHandles
    cases h : splitOnChar '_' f with
    | nil => exact absurd h (splitOnChar_ne_nil _ _)
    | cons g gs => simp [ih, handle, h]

theorem splitOnChar_of_not_mem (sep : Char) (s : List Char) (h : sep ∉ s) :
    splitOnChar sep s = [s] := by
  induction s with
  | nil => rfl
  | cons c rest ih =>
    simp only [List.mem_cons, not_or] at h
    simp only [splitOnChar, ih h.2]
    rw [if_neg (fun hc => h.1 hc.symm)]

theorem slashComps_flat (m : Name) (hne : m ≠ []) (h : '/' ∉ m) : slashComps m = [m] := by
  unfold slashComps
  rw [splitOnChar_of_not_mem _ _ h]
  simp [hne]

theorem dirTarget_last (f : Name) : (dirTarget f).getLast? = some f := by
  unfold dirTarget comps
  split <;> simp

theorem dirTarget_inj (f g : Name) (h : dirTarget f = dirTarget g) : f = g := by
  have := dirTarget_last f
  rw [h, dirTarget_last g] at this
  exact (Option.some_inj.mp this).symm

theorem length_filter_eq_one_of_nodup {α : Type} [DecidableEq α] {l : List α} {a : α}
    (h : l.Nodup) (ha : a ∈ l) : (l.filter (fun b => decide (b = a))).length = 1 := by
  induction l with
  | nil => cases ha
  | cons x xs ih =>
    rw [List.nodup_cons] at h
    by_cases hx : x = a
    · subst hx
      have hnil : xs.filter (fun b => decide (b = x)) = [] := by
        rw [List.filter_eq_nil_iff]
        intro b hb
        simp only [decide_eq_true_eq]
        intro hba
        exact h.1 (hba ▸ hb)
      simp [List.filter_cons, hnil]
    · have hax : a ∈ xs := by
        rcases List.mem_cons.mp ha with rfl | hm
        · exact absurd rfl hx
        · exact hm
      simp [List.filter_cons, hx, ih h.2 hax]

/-! ### Lemmas about the destination tree -/

theorem pathExists_addDir_mono (t : DestTree) (q p : Path) (h : pathExists t p = true) :
    pathExists (addDir t q) p = true := by
  simp only [pathExists, addDir, Bool.or_eq_true, decide_eq_true_eq, List.mem_append] at h ⊢
  tauto

theorem pathExists_addDir_self (t : DestTree) (p : Path) : pathExists (addDir t p) p = true := by
  simp [pathExists, addDir]

theorem pathExists_files_ext (t : DestTree) (extra : List Path) (p : Path)
    (h : pathExists t p = true) : pathExists ⟨t.dirs, t.files ++ extra⟩ p = true := by
  simp only [pathExists, Bool.or_eq_true, decide_eq_true_eq, List.mem_append] at h ⊢
  tauto

/-! ### The folder-creation loop -/

theorem ensureDirs_spec (names : List Name) :
    ∀ t : DestTree, ∃ t2 : DestTree,
      ensureDirs t names = .ok t2 ∧
      t2.files = t.files ∧
      (∀ p ∈ t2.dirs, p ∈ t.dirs ∨ ∃ n ∈ names, n ≠ [] ∧ p = [n]) ∧
      (∀ p, pathExists t p = true → pathExists t2 p = true) ∧
      (∀ n ∈ names, pathExists t2 (comps n) = true) := by
  induction names with
  | nil =>
    intro t
    exact ⟨t, rfl, rfl, fun p hp => .inl hp, fun p hp => hp, by simp⟩
  | cons n rest ih =>
    intro t
    cases hex : pathExists t (comps n) with
    | true =>
      obtain ⟨t2, h1, h2, h3, h4, h5⟩ := ih t
      refine ⟨t2, ?_, h2, ?_, h4, ?_⟩
      · simp [ensureDirs, hex, h1]
      · intro p hp
        rcases h3 p hp with h | ⟨m, hm, hmne, hpe⟩
        · exact .inl h
        · exact .inr ⟨m, List.mem_cons_of_mem _ hm, hmne, hpe⟩
      · intro m hm
        rcases List.mem_cons.mp hm with rfl | hm
        · exact h4 _ hex
        · exact h5 m hm
    | false =>
      have hne : n ≠ [] := by
        intro h
        subst h
        simp [comps, pathExists] at hex
      have hcomps : comps n = [n] := by simp [comps, hne]
      obtain ⟨t2, h1, h2, h3, h4, h5⟩ := ih (addDir t (comps n))
      refine ⟨t2, ?_, h2, ?_, ?_, ?_⟩
      · simp [ensureDirs, hex, mkdirP, h1]
      · intro p hp
        rcases h3 p hp with h | ⟨m, hm, hmne, hpe⟩
        · rcases List.mem_append.mp h with h | h
          · exact .inl h
          · simp only [List.mem_singleton] at h
            exact .inr ⟨n, List.mem_cons_self _ _, hne, by rw [h, hcomps]⟩
        · exact .inr ⟨m, List.mem_cons_of_mem _ hm, hmne, hpe⟩
      · intro p hp
        exact h4 p (pathExists_addDir_mono t _ p hp)
      · intro m hm
        rcases List.mem_cons.mp hm with rfl | hm
        · exact h4 _ (pathExists_addDir_self t _)
        · exact h5 m hm

/-! ### The move and extract loops -/

theorem moveLoop_tree (fails : Name → Bool) (l : List Name) :
    ∀ es t, (moveLoop fails l (es, t)).2 =
      ⟨t.dirs, t.files ++ (l.filter (fun f => !fails f)).map dirTarget⟩ := by
  induction l with
  | nil => intro es t; simp [moveLoop]
  | cons f rest ih =>
    intro es t
    cases hf : fails f with
    | true => simp [moveLoop, hf, ih]
    | false => simp [moveLoop, hf, ih, addFile, List.append_assoc]

theorem moveLoop_entries (fails : Name → Bool) (l : List Name) :
    ∀ es t, (moveLoop fails l (es, t)).1 =
      es.filter (fun e => fails e.name || decide (e.name ∉ l)) := by
  induction l with
  | nil => intro es t; simp [moveLoop]
  | cons f rest ih =>
    intro es t
    cases hf : fails f with
    | true =>
      rw [moveLoop, if_pos hf, ih]
      apply List.filter_congr
      intro e _
      by_cases he : e.name = f <;> simp [he, hf, List.mem_cons]
    | false =>
      rw [moveLoop, if_neg (by simp [hf]), ih, List.filter_filter]
      apply List.filter_congr
      intro e _
      by_cases he : e.name = f <;> simp [he, hf, List.mem_cons]

theorem extractLoop_tree (fails : Name → Bool) (l : List Name) :
    ∀ t, extractLoop fails l t =
      ⟨t.dirs, t.files ++ (l.filter (fun m => !fails m)).map zipTarget⟩ := by
  induction l with
  | nil => intro t; simp [extractLoop]
  | cons m rest ih =>
    intro t
    cases hm : fails m with
    | true => simp [extractLoop, hm, ih]
    | false => simp [extractLoop, hm, ih, addFile, List.append_assoc]

theorem memberFiles_all_regular (ms : List Name) :
    memberFiles (.dir (ms.map (fun n => ⟨n, true⟩))) = ms := by
  induction ms with
  | nil => rfl
  | cons m rst ih =>
    simp only [memberFiles, List.map_cons, List.filter_cons] at ih ⊢
    simpa using ih

/-! ### Computation lemmas for `categorize` -/

theorem categorize_dir_run (fails : Name → Bool) (entries : List Entry) (ds : DestStatus)
    (t t0 t1 : DestTree) (hd : destPrep ds t = .ok t0)
    (he : ensureDirs t0 ((extractHandles (memberFiles (.dir entries))).dedup) = .ok t1) :
    categorize fails ⟨.dir entries, ds, t⟩ =
      ⟨⟨.dir (moveLoop fails (memberFiles (.dir entries)) (entries, t1)).1, .isDir,
        (moveLoop fails (memberFiles (.dir entries)) (entries, t1)).2⟩, none, []⟩ := by
  simp only [categorize, hd, he]

theorem categorize_zip_run (fails : Name → Bool) (members : List Name) (ds : DestStatus)
    (t t0 t1 : DestTree) (hd : destPrep ds t = .ok t0)
    (he : ensureDirs t0 ((extractHandles members).dedup) = .ok t1) :
    categorize fails ⟨.zip members, ds, t⟩ =
      ⟨⟨.zip members, .isDir, extractLoop fails members t1⟩, none,
        [.opened, .closed, .opened, .closed]⟩ := by
  simp only [categorize, hd, he]

theorem categorize_ok (fails : Name → Bool) (fs : FS)
    (hs : fs.source ≠ .invalid) (hd : fs.destStatus ≠ .notDir) :
    (categorize fails fs).err = none ∧ (categorize fails fs).fs.destStatus = .isDir := by
  obtain ⟨src, ds, t⟩ := fs
  obtain ⟨t0, hdp⟩ : ∃ t0, destPrep ds t = .ok t0 := by
    cases ds with
    | absent => exact ⟨emptyTree, rfl⟩
    | isDir => exact ⟨t, rfl⟩
    | notDir => exact absurd rfl hd
  cases src with
  | invalid => exact absurd rfl hs
  | dir entries =>
    obtain ⟨t1, h1, -, -, -, -⟩ :=
      ensureDirs_spec ((extractHandles (memberFiles (.dir entries))).dedup) t0
    rw [categorize_dir_run fails entries ds t t0 t1 hdp h1]
    exact ⟨rfl, rfl⟩
  | zip members =>
    obtain ⟨t1, h1, -, -, -, -⟩ := ensureDirs_spec ((extractHandles members).dedup) t0
    rw [categorize_zip_run fails members ds t t0 t1 hdp h1]
    exact ⟨rfl, rfl⟩

theorem categorize_err_state (fails : Name → Bool) (fs : FS)
    (h : (categorize fails fs).err ≠ none) :
    (fs.source = .invalid ∨ fs.destStatus = .notDir) ∧ (categorize fails fs).fs = fs := by
  by_cases hs : fs.source = .invalid
  · refine ⟨.inl hs, ?_⟩
    obtain ⟨src, ds, t⟩ := fs
    cases src with
    | invalid => rfl
    | dir entries => exact Source.noConfusion hs
    | zip members => exact Source.noConfusion hs
  · by_cases hd : fs.destStatus = .notDir
    · refine ⟨.inr hd, ?_⟩
      obtain ⟨src, ds, t⟩ := fs
      cases ds with
      | notDir =>
        cases src with
        | invalid => rfl
        | dir entries => rfl
        | zip members => rfl
      | absent => exact DestStatus.noConfusion hd
      | isDir => exact DestStatus.noConfusion hd
    · exact absurd (categorize_ok fails fs hs hd).1 h

theorem categorize_err_of_bad (fails : Name → Bool) (fs : FS)
    (h : fs.source = .invalid ∨ fs.destStatus = .notDir) :
    (categorize fails fs).err ≠ none := by
  obtain ⟨src, ds, t⟩ := fs
  rcases h with h | h
  · cases src with
    | invalid => simp [categorize]
    | dir entries => exact Source.noConfusion h
    | zip members => exact Source.noConfusion h
  · cases ds with
    | notDir =>
      cases src with
      | invalid => simp [categorize]
      | dir entries => simp [categorize, destPrep]
      | zip members => simp [categorize, destPrep]
    | absent => exact DestStatus.noConfusion h
    | isDir => exact DestStatus.noConfusion h

/-! ### Claim theorems -/

/-- C1: for a directory source all of whose enumerated regular files relocate
successfully (with a fresh destination), `categorize` returns normally, the
destination files are exactly the relocation targets
`destination/<handle f>/<f>` of the enumerated files (so no file is
duplicated or dropped, and each file's location is determined solely by its
name's first `_`-token), each such target holds exactly one file, and no
enumerated file name is still present in the source directory. -/
theorem C1_dir_success (fails : Name → Bool) (entries : List Entry) (t : DestTree)
    (hnd : (entries.map Entry.name).Nodup)
    (hok : ∀ f ∈ memberFiles (.dir entries), fails f = false) :
    (categorize fails ⟨.dir entries, .absent, t⟩).err = none ∧
    (categorize fails ⟨.dir entries, .absent, t⟩).fs.tree.files
      = (memberFiles (.dir entries)).map dirTarget ∧
    (∀ f ∈ memberFiles (.dir entries),
      ((categorize fails ⟨.dir entries, .absent, t⟩).fs.tree.files.filter
        (fun p => decide (p = dirTarget f))).length = 1) ∧
    (∀ f ∈ memberFiles (.dir entries),
      f ∉ (sourceEntries (categorize fails ⟨.dir entries, .absent, t⟩).fs.source).map
        Entry.name) := by
  obtain ⟨t1, h1, hfiles1, -, -, -⟩ :=
    ensureDirs_spec ((extractHandles (memberFiles (.dir entries))).dedup) emptyTree
  rw [categorize_dir_run fails entries .absent t emptyTree t1 rfl h1]
  have hfilter : (memberFiles (.dir entries)).filter (fun f => !fails f)
      = memberFiles (.dir entries) := by
    rw [List.filter_eq_self]
    intro f hf
    simp [hok f hf]
  have htree : (moveLoop fails (memberFiles (.dir entries)) (entries, t1)).2.files
      = (memberFiles (.dir entries)).map dirTarget := by
    rw [moveLoop_tree, hfilter]
    simp [hfiles1, emptyTree]
  have hnodupFiles : (memberFiles (.dir entries)).Nodup := by
    have hsub : List.Sublist (memberFiles (.dir entries)) (entries.map Entry.name) :=
      (List.filter_sublist entries).map Entry.name
    exact hnd.sublist hsub
  refine ⟨rfl, htree, ?_, ?_⟩
  · intro f hf
    have hmem : dirTarget f ∈ (memberFiles (.dir entries)).map dirTarget :=
      List.mem_map_of_mem dirTarget hf
    have hnodupT : ((memberFiles (.dir entries)).map dirTarget).Nodup :=
      hnodupFiles.map (fun a b h => dirTarget_inj a b h)
    simp only [htree]
    exact length_filter_eq_one_of_nodup hnodupT hmem
  · intro f hf hmem
    simp only [sourceEntries, moveLoop_entries, List.mem_map] at hmem
    obtain ⟨e, he, hename⟩ := hmem
    rw [List.mem_filter] at he
    have := he.2
    rw [hename] at this
    simp [hok f hf, hf] at this

/-- Witness for C1 at the spec's three-file example batch. -/
theorem C1_dir_success_witness :
    (exEntries.map Entry.name).Nodup ∧
    (categorize noFail ⟨.dir exEntries, .absent, emptyTree⟩).err = none :=
  ⟨by decide, (C1_dir_success noFail exEntries emptyTree (by decide) (by decide)).1⟩

/-- C3: `categorize` raises exactly when the source is neither a directory nor
a valid zip archive, or the destination exists and is not a directory; in
either failing case the error is raised before any mutation, so the filesystem
(including the destination tree) is unchanged. -/
theorem C3_error_iff (fails : Name → Bool) (fs : FS) :
    ((categorize fails fs).err ≠ none ↔ fs.source = .invalid ∨ fs.destStatus = .notDir) ∧
    ((categorize fails fs).err ≠ none → (categorize fails fs).fs = fs) := by
  refine ⟨⟨fun h => (categorize_err_state fails fs h).1, categorize_err_of_bad fails fs⟩, ?_⟩
  exact fun h => (categorize_err_state fails fs h).2

/-- C2: the handle of any member name, both as computed at line 125 of
`categorize` and by the extraction loop of `get_unique_names`, is the
substring before the first `_` character; for a name containing no `_` the
handle is the whole name, and such a (non-empty) name forms a single-member
group in its own subdirectory `destination/<name>/<name>`. -/
theorem C2_handle_spec (n : Name) (hnu : '_' ∉ n) (hne : n ≠ []) (t : DestTree) :
    (∀ m : Name, handle m = m.takeWhile (fun c => c != '_')) ∧
    (∀ files : List Name, extractHandles files = files.map handle) ∧
    handle n = n ∧
    categorize noFail ⟨.dir [⟨n, true⟩], .absent, t⟩ =
      ⟨⟨.dir [], .isDir, ⟨[[n]], [[n, n]]⟩⟩, none, []⟩ := by
  have hh := handle_of_no_underscore n hnu
  refine ⟨handle_eq_takeWhile, extractHandles_eq_map, hh, ?_⟩
  have hens : ensureDirs emptyTree ((extractHandles (memberFiles (.dir [⟨n, true⟩]))).dedup)
      = .ok ⟨[[n]], []⟩ := by
    have h1 : (extractHandles (memberFiles (.dir [⟨n, true⟩]))).dedup = [n] := by
      simp [extractHandles_eq_map, memberFiles, hh]
    rw [h1]
    simp [ensureDirs, pathExists, comps, hne, mkdirP, addDir, emptyTree]
  rw [categorize_dir_run noFail [⟨n, true⟩] .absent t emptyTree ⟨[[n]], []⟩ rfl hens]
  simp [moveLoop, noFail, memberFiles, dirTarget, hh, comps, hne, addFile]

/-- Witness for C2 at the spec's `"readme.txt"` example. -/
theorem C2_handle_spec_witness :
    ('_' ∉ "readme.txt".toList ∧ "readme.txt".toList ≠ []) ∧
    handle "readme.txt".toList = "readme.txt".toList :=
  ⟨⟨by decide, by decide⟩,
    (C2_handle_spec "readme.txt".toList (by decide) (by decide) emptyTree).2.2.1⟩

/-- C4: for any per-file `OSError` oracle, `categorize` returns normally on a
valid source; a failing file is skipped (it stays in the source directory, or
stays unextracted) while every non-failing file is relocated: the destination
files are exactly the targets of the non-failing members, and the remaining
source entries are exactly those whose name failed or was not enumerated.
Stated for both a directory source and a zip source (fresh destination). -/
theorem C4_per_file_errors (fails : Name → Bool) (entries : List Entry)
    (members : List Name) (t t' : DestTree) :
    (categorize fails ⟨.dir entries, .absent, t⟩).err = none ∧
    sourceEntries (categorize fails ⟨.dir entries, .absent, t⟩).fs.source
      = entries.filter
          (fun e => fails e.name || decide (e.name ∉ memberFiles (.dir entries))) ∧
    (categorize fails ⟨.dir entries, .absent, t⟩).fs.tree.files
      = ((memberFiles (.dir entries)).filter (fun f => !fails f)).map dirTarget ∧
    (∀ f ∈ memberFiles (.dir entries), fails f = true →
      f ∈ (sourceEntries (categorize fails ⟨.dir entries, .absent, t⟩).fs.source).map
        Entry.name) ∧
    (categorize fails ⟨.zip members, .absent, t'⟩).err = none ∧
    (categorize fails ⟨.zip members, .absent, t'⟩).fs.source = .zip members ∧
    (categorize fails ⟨.zip members, .absent, t'⟩).fs.tree.files
      = (members.filter (fun m => !fails m)).map zipTarget := by
  obtain ⟨t1, h1, hfiles1, -, -, -⟩ :=
    ensureDirs_spec ((extractHandles (memberFiles (.dir entries))).dedup) emptyTree
  obtain ⟨t1z, h1z, hfiles1z, -, -, -⟩ :=
    ensureDirs_spec ((extractHandles members).dedup) emptyTree
  rw [categorize_dir_run fails entries .absent t emptyTree t1 rfl h1]
  rw [categorize_zip_run fails members .absent t' emptyTree t1z rfl h1z]
  refine ⟨rfl, ?_, ?_, ?_, rfl, rfl, ?_⟩
  · simp [sourceEntries, moveLoop_entries]
  · rw [moveLoop_tree]
    simp [hfiles1, emptyTree]
  · intro f hf hfail
    simp only [sourceEntries, moveLoop_entries, List.mem_map]
    simp only [memberFiles, List.mem_map] at hf
    obtain ⟨e, he, hename⟩ := hf
    rw [List.mem_filter] at he
    refine ⟨e, ?_, hename⟩
    rw [List.mem_filter]
    exact ⟨he.1, by simp [hename, hfail]⟩
  · rw [extractLoop_tree]
    simp [hfiles1z, emptyTree]

/-- Witness for C4: one simulated per-file failure leaves that file in the
source directory while the run still returns normally. -/
theorem C4_per_file_errors_witness :
    (categorize exFail ⟨.dir exEntries, .absent, emptyTree⟩).err = none ∧
    "kc555014_hw1.py".toList ∈
      (sourceEntries (categorize exFail ⟨.dir exEntries, .absent, emptyTree⟩).fs.source).map
        Entry.name :=
  ⟨(C4_per_file_errors exFail exEntries exNames emptyTree emptyTree).1,
    (C4_per_file_errors exFail exEntries exNames emptyTree emptyTree).2.2.2.1
      "kc555014_hw1.py".toList (by decide) (by decide)⟩

/-- C5: the zip-handle open/close trace of any `categorize` run is balanced
and well nested: whenever the archive is opened it is closed again before
`categorize` returns, on error paths and on runs with per-file relocation
errors alike. -/
theorem C5_zip_closed (fails : Name → Bool) (fs : FS) :
    balancedTrace (categorize fails fs).zipTrace = true ∧
    (categorize fails fs).zipTrace.count ZipEvent.opened
      = (categorize fails fs).zipTrace.count ZipEvent.closed := by
  obtain ⟨src, ds, t⟩ := fs
  cases src with
  | invalid => exact ⟨rfl, rfl⟩
  | dir entries =>
    cases ds with
    | notDir => exact ⟨rfl, rfl⟩
    | absent =>
      obtain ⟨t1, h1, -, -, -, -⟩ :=
        ensureDirs_spec ((extractHandles (memberFiles (.dir entries))).dedup) emptyTree
      rw [categorize_dir_run fails entries .absent t emptyTree t1 rfl h1]
      exact ⟨rfl, rfl⟩
    | isDir =>
      obtain ⟨t1, h1, -, -, -, -⟩ :=
        ensureDirs_spec ((extractHandles (memberFiles (.dir entries))).dedup) t
      rw [categorize_dir_run fails entries .isDir t t t1 rfl h1]
      exact ⟨rfl, rfl⟩
  | zip members =>
    cases ds with
    | notDir => exact ⟨rfl, rfl⟩
    | absent =>
      obtain ⟨t1, h1, -, -, -, -⟩ := ensureDirs_spec ((extractHandles members).dedup) emptyTree
      rw [categorize_zip_run fails members .absent t emptyTree t1 rfl h1]
      exact ⟨rfl, rfl⟩
    | isDir =>
      obtain ⟨t1, h1, -, -, -, -⟩ := ensureDirs_spec ((extractHandles members).dedup) t
      rw [categorize_zip_run fails members .isDir t t t1 rfl h1]
      exact ⟨rfl, rfl⟩

/-- Witness for C5 at the zip example batch with a per-file failure. -/
theorem C5_zip_closed_witness :
    balancedTrace (categorize exFail ⟨.zip exNames, .absent, emptyTree⟩).zipTrace = true :=
  (C5_zip_closed exFail ⟨.zip exNames, .absent, emptyTree⟩).1

/-- C6: on any valid batch `get_unique_names` returns a duplicate-free list
whose underlying set is the set of first-underscore-token handles of the
member names; after a `categorize` run on a fresh destination, every directory
in the destination tree is named by the handle of some member, and a path for
every member name's handle exists in the destination. -/
theorem C6_unique_names (s : Source) (t : DestTree) (fails : Name → Bool)
    (hs : s ≠ .invalid) :
    (∃ l : List Name, get_unique_names s = .ok l ∧ l.Nodup ∧
      (∀ x : Name, x ∈ l ↔ x ∈ (memberFiles s).map handle)) ∧
    (∀ p ∈ (categorize fails ⟨s, .absent, t⟩).fs.tree.dirs,
      ∃ f ∈ memberFiles s, p = [handle f]) ∧
    (∀ f ∈ memberFiles s,
      pathExists (categorize fails ⟨s, .absent, t⟩).fs.tree (comps (handle f)) = true) := by
  have hnamesMem : ∀ x : Name,
      x ∈ (extractHandles (memberFiles s)).dedup ↔ x ∈ (memberFiles s).map handle := by
    intro x
    rw [List.mem_dedup, extractHandles_eq_map]
  refine ⟨?_, ?_⟩
  · cases s with
    | invalid => exact absurd rfl hs
    | dir entries => exact ⟨_, rfl, List.nodup_dedup _, hnamesMem⟩
    | zip members => exact ⟨_, rfl, List.nodup_dedup _, hnamesMem⟩
  cases s with
  | invalid => exact absurd rfl hs
  | dir entries =>
    obtain ⟨t1, h1, -, h3, -, h5⟩ :=
      ensureDirs_spec ((extractHandles (memberFiles (.dir entries))).dedup) emptyTree
    rw [categorize_dir_run fails entries .absent t emptyTree t1 rfl h1]
    constructor
    · intro p hp
      rw [moveLoop_tree] at hp
      rcases h3 p hp with h | ⟨n, hn, hne, rfl⟩
      · simp [emptyTree] at h
      · rw [hnamesMem n] at hn
        obtain ⟨f, hf, rfl⟩ := List.mem_map.mp hn
        exact ⟨f, hf, rfl⟩
    · intro f hf
      rw [moveLoop_tree]
      exact pathExists_files_ext t1 _ _
        (h5 _ ((hnamesMem _).mpr (List.mem_map_of_mem handle hf)))
  | zip members =>
    obtain ⟨t1, h1, -, h3, -, h5⟩ :=
      ensureDirs_spec ((extractHandles members).dedup) emptyTree
    rw [categorize_zip_run fails members .absent t emptyTree t1 rfl h1]
    constructor
    · intro p hp
      rw [extractLoop_tree] at hp
      rcases h3 p hp with h | ⟨n, hn, hne, rfl⟩
      · simp [emptyTree] at h
      · obtain ⟨f, hf, rfl⟩ := List.mem_map.mp ((hnamesMem n).mp hn)
        exact ⟨f, hf, rfl⟩
    · intro f hf
      rw [extractLoop_tree]
      exact pathExists_files_ext t1 _ _
        (h5 _ ((hnamesMem _).mpr (List.mem_map_of_mem handle hf)))

/-- Witness for C6 at the zip example batch. -/
theorem C6_unique_names_witness :
    (Source.zip exNames ≠ .invalid) ∧
    (∃ l : List Name, get_unique_names (.zip exNames) = .ok l ∧ l.Nodup ∧
      (∀ x : Name, x ∈ l ↔ x ∈ (memberFiles (.zip exNames)).map handle)) :=
  ⟨by decide, (C6_unique_names (.zip exNames) emptyTree noFail (by decide)).1⟩

/-- C7: directory creation in `categorize` is idempotent: a name whose
per-handle directory already exists leaves the tree unchanged (and raises
nothing), and a second `categorize` run against the destination produced by a
successful first run returns normally instead of failing on already-existing
per-handle subdirectories. -/
theorem C7_idempotent (fails fails2 : Name → Bool) (entries entries2 : List Entry)
    (ds : DestStatus) (t : DestTree)
    (h1 : (categorize fails ⟨.dir entries, ds, t⟩).err = none) :
    (categorize fails2 ⟨.dir entries2,
        (categorize fails ⟨.dir entries, ds, t⟩).fs.destStatus,
        (categorize fails ⟨.dir entries, ds, t⟩).fs.tree⟩).err = none ∧
    (∀ t' : DestTree, ∀ n : Name, pathExists t' (comps n) = true →
      ensureDirs t' [n] = .ok t') := by
  constructor
  · have hd : ds ≠ .notDir := by
      intro hds
      subst hds
      exact categorize_err_of_bad fails ⟨.dir entries, .notDir, t⟩ (.inr rfl) h1
    have hfirst := categorize_ok fails ⟨.dir entries, ds, t⟩
      (fun h => Source.noConfusion h) hd
    refine (categorize_ok fails2 _ (fun h => Source.noConfusion h) ?_).1
    rw [hfirst.2]
    exact fun h => DestStatus.noConfusion h
  · intro t' n h
    simp [ensureDirs, h]

/-- Witness for C7: running `categorize` twice on the example batch. -/
theorem C7_idempotent_witness :
    (categorize noFail ⟨.dir exEntries, .absent, emptyTree⟩).err = none ∧
    (categorize noFail ⟨.dir exEntries,
        (categorize noFail ⟨.dir exEntries, .absent, emptyTree⟩).fs.destStatus,
        (categorize noFail ⟨.dir exEntries, .absent, emptyTree⟩).fs.tree⟩).err = none :=
  ⟨by decide,
    (C7_idempotent noFail noFail exEntries exEntries .absent emptyTree (by decide)).1⟩

/-- C8: a zip archive whose members are a flat list of (non-empty) names with
no internal path separators and a directory holding files of exactly those
names produce identical destination trees when categorized into fresh
destinations — the zip path extracting rather than moving, with the archive
left unchanged. -/
theorem C8_zip_dir_equiv (members : List Name) (t t' : DestTree)
    (hne : ∀ m ∈ members, m ≠ []) (hflat : ∀ m ∈ members, '/' ∉ m) :
    (categorize noFail ⟨.zip members, .absent, t⟩).fs.tree
      = (categorize noFail
          ⟨.dir (members.map (fun n => ⟨n, true⟩)), .absent, t'⟩).fs.tree ∧
    (categorize noFail ⟨.zip members, .absent, t⟩).fs.source = .zip members ∧
    (categorize noFail ⟨.zip members, .absent, t⟩).err = none ∧
    (categorize noFail
      ⟨.dir (members.map (fun n => ⟨n, true⟩)), .absent, t'⟩).err = none := by
  have hmf := memberFiles_all_regular members
  obtain ⟨t1, h1, -, -, -, -⟩ := ensureDirs_spec ((extractHandles members).dedup) emptyTree
  have h1d : ensureDirs emptyTree
      ((extractHandles (memberFiles (.dir (members.map (fun n => ⟨n, true⟩))))).dedup)
      = .ok t1 := by
    rw [hmf]
    exact h1
  rw [categorize_zip_run noFail members .absent t emptyTree t1 rfl h1]
  rw [categorize_dir_run noFail (members.map (fun n => ⟨n, true⟩)) .absent t' emptyTree t1
    rfl h1d]
  refine ⟨?_, rfl, rfl, rfl⟩
  rw [extractLoop_tree, moveLoop_tree, hmf]
  have : ∀ m ∈ members.filter (fun m => !noFail m), zipTarget m = dirTarget m := by
    intro m hm
    rw [List.mem_filter] at hm
    unfold zipTarget dirTarget
    rw [slashComps_flat m (hne m hm.1) (hflat m hm.1)]
  rw [List.map_congr_left this]

/-- Witness for C8 at the spec's three-member flat batch. -/
theorem C8_zip_dir_equiv_witness :
    (∀ m ∈ exNames, m ≠ []) ∧
    (categorize noFail ⟨.zip exNames, .absent, emptyTree⟩).fs.tree
      = (categorize noFail
          ⟨.dir (exNames.map (fun n => ⟨n, true⟩)), .absent, emptyTree⟩).fs.tree :=
  ⟨by decide, (C8_zip_dir_equiv exNames emptyTree emptyTree (by decide) (by decide)).1⟩

/-- C9: non-regular entries (e.g. subdirectories) of a directory source are
excluded from enumeration — they contribute no member name and hence no
handle — and are still present, unchanged, in the source directory after
`categorize` returns. -/
theorem C9_non_regular (fails : Name → Bool) (entries : List Entry) (t : DestTree)
    (hnd : (entries.map Entry.name).Nodup) :
    memberFiles (.dir entries)
      = (entries.filter (fun e => e.isFile)).map (fun e => e.name) ∧
    (∀ e ∈ entries, e.isFile = false →
      e.name ∉ memberFiles (.dir entries) ∧
      e ∈ sourceEntries (categorize fails ⟨.dir entries, .absent, t⟩).fs.source) := by
  obtain ⟨t1, h1, -, -, -, -⟩ :=
    ensureDirs_spec ((extractHandles (memberFiles (.dir entries))).dedup) emptyTree
  rw [categorize_dir_run fails entries .absent t emptyTree t1 rfl h1]
  refine ⟨rfl, ?_⟩
  intro e he hef
  have hnot : e.name ∉ memberFiles (.dir entries) := by
    intro hmem
    simp only [memberFiles, List.mem_map] at hmem
    obtain ⟨e2, he2, hname⟩ := hmem
    rw [List.mem_filter] at he2
    have : e2 = e := List.inj_on_of_nodup_map hnd he2.1 he hname
    rw [this] at he2
    rw [he2.2] at hef
    exact Bool.noConfusion hef
  refine ⟨hnot, ?_⟩
  simp only [sourceEntries, moveLoop_entries]
  rw [List.mem_filter]
  exact ⟨he, by simp [hnot]⟩

/-- Witness for C9: a subdirectory entry survives the example run. -/
theorem C9_non_regular_witness :
    (exMixedEntries.map Entry.name).Nodup ∧
    (⟨"subdir".toList, false⟩ : Entry) ∈
      sourceEntries (categorize noFail ⟨.dir exMixedEntries, .absent, emptyTree⟩).fs.source :=
  ⟨by decide,
    ((C9_non_regular noFail exMixedEntries emptyTree (by decide)).2
      ⟨"subdir".toList, false⟩ (by decide) (by decide)).2⟩

/-- C10: a member name beginning with `_` derives the empty handle; since
joining the destination with the empty string names the destination root,
which always exists, no per-handle directory is created for it (every created
directory path is non-empty), and the file is relocated directly into the
destination root as the one-component path `[name]`. -/
theorem C10_empty_handle (rest : Name) (entries : List Entry) (t t' : DestTree)
    (hmem : ('_' :: rest) ∈ memberFiles (.dir entries)) :
    handle ('_' :: rest) = [] ∧
    comps (handle ('_' :: rest)) = [] ∧
    pathExists t' (comps (handle ('_' :: rest))) = true ∧
    dirTarget ('_' :: rest) = [('_' :: rest)] ∧
    [('_' :: rest)] ∈ (categorize noFail ⟨.dir entries, .absent, t⟩).fs.tree.files ∧
    (∀ p ∈ (categorize noFail ⟨.dir entries, .absent, t⟩).fs.tree.dirs, p ≠ []) := by
  have hh : handle ('_' :: rest) = [] := by
    rw [handle_cons]
    simp
  have hc : comps (handle ('_' :: rest)) = [] := by
    rw [hh]
    rfl
  have hdt : dirTarget ('_' :: rest) = [('_' :: rest)] := by
    unfold dirTarget
    rw [hc, List.nil_append]
  obtain ⟨t1, h1, hfiles1, h3, -, -⟩ :=
    ensureDirs_spec ((extractHandles (memberFiles (.dir entries))).dedup) emptyTree
  rw [categorize_dir_run noFail entries .absent t emptyTree t1 rfl h1]
  refine ⟨hh, hc, by simp [pathExists, hc], hdt, ?_, ?_⟩
  · rw [moveLoop_tree]
    have hfilter : (memberFiles (.dir entries)).filter (fun f => !noFail f)
        = memberFiles (.dir entries) := by
      rw [List.filter_eq_self]
      intro f hf
      rfl
    simp only [hfilter, hfiles1, emptyTree, List.nil_append]
    rw [← hdt]
    exact List.mem_map_of_mem dirTarget hmem
  · intro p hp
    rw [moveLoop_tree] at hp
    rcases h3 p hp with h | ⟨n, hn, hne, rfl⟩
    · simp [emptyTree] at h
    · exact List.cons_ne_nil n []

/-- Witness for C10 at a batch containing `"_hw1.py"`. -/
theorem C10_empty_handle_witness :
    ('_' :: "hw1.py".toList) ∈ memberFiles (.dir exUEntries) ∧
    handle ('_' :: "hw1.py".toList) = [] :=
  ⟨by decide,
    (C10_empty_handle "hw1.py".toList exUEntries emptyTree emptyTree (by decide)).1⟩

/-- Witness for C3 at an invalid source. -/
theorem C3_error_iff_witness :
    (categorize noFail ⟨.invalid, .absent, emptyTree⟩).err ≠ none :=
  ((C3_error_iff noFail ⟨.invalid, .absent, emptyTree⟩).1).mpr (.inl rfl)

end Cs3560
